import Mathlib

/-!
# Verification of `raw_list` (an intrusive doubly linked list)

Shallow embedding of `src/raw_list.rs`.  Raw node pointers (`NonNull<Node<T>>`)
are modelled as natural-number node ids; the memory the pointers point into is
an explicit heap `Nat → Node T` carried inside the list state.  `usize`
subtraction is modelled by a checked subtraction returning `Option Nat`
(`none` is the arithmetic-overflow panic of a debug build, which is how the
repository's own test suite runs); operations containing such a subtraction
therefore return `Option`.  `len += 1` / `idx + 1` are kept as plain `Nat`
addition: overflowing them would require `2^64` simultaneously live distinct
nodes, which no address space admits.
-/

namespace RawList

variable {T : Type}

/-- `struct Node<T>`: one element plus the two intrusive links.
`Link<T> = Option<NonNull<Node<T>>>` becomes `Option Nat`. -/
structure Node (T : Type) where
  next : Option Nat
  prev : Option Nat
  elem : T
deriving Repr, DecidableEq

/-- The memory behind the raw pointers: node id to node record. -/
abbrev Heap (T : Type) := Nat → Node T

/-- Store a node record at id `i` (one raw-pointer write target). -/
def Heap.set (h : Heap T) (i : Nat) (n : Node T) : Heap T :=
  fun j => if j = i then n else h j

/-- `struct List<T>`: front/back links and the length, together with the
heap of nodes the links point into. -/
structure RList (T : Type) where
  heap : Heap T
  front : Option Nat
  back : Option Nat
  len : Nat

/-- `struct CursorMut`: stored logical index and current link.  (The `&mut`
borrow of the list is the explicit list argument of each operation.) -/
structure CursorMut where
  idx : Option Nat
  current : Option Nat
deriving Repr, DecidableEq

/-- Checked `usize` subtraction: `a - b`, panicking (`none`) on underflow. -/
def usub (a b : Nat) : Option Nat := if b ≤ a then some (a - b) else none

@[simp] lemma usub_of_le {a b : Nat} (h : b ≤ a) : usub a b = some (a - b) := by
  simp [usub, h]

/-- `List::new()` with a given initial memory. -/
def RList.new (h : Heap T) : RList T :=
  { heap := h, front := none, back := none, len := 0 }

/-- `List::push_front`. -/
def RList.push_front (s : RList T) (node : Nat) : RList T :=
  match s.front with
  | some old_front =>
    let h1 := Heap.set s.heap node { s.heap node with next := some old_front }
    let h2 := Heap.set h1 old_front { h1 old_front with prev := some node }
    { s with heap := h2, front := some node, len := s.len + 1 }
  | none =>
    { s with front := some node, back := some node, len := s.len + 1 }

/-- `List::push_back`. -/
def RList.push_back (s : RList T) (node : Nat) : RList T :=
  match s.back with
  | some old_back =>
    let h1 := Heap.set s.heap node { s.heap node with prev := some old_back }
    let h2 := Heap.set h1 old_back { h1 old_back with next := some node }
    { s with heap := h2, back := some node, len := s.len + 1 }
  | none =>
    { s with front := some node, back := some node, len := s.len + 1 }

/-- `List::pop_front`.  Returns the detached link and the new state. -/
def RList.pop_front (s : RList T) : Option (Option Nat × RList T) :=
  match s.front with
  | none => some (none, s)
  | some old_front =>
    let s1 :=
      match (s.heap old_front).next with
      | some new_front =>
        { s with
          heap := Heap.set s.heap new_front { s.heap new_front with prev := none },
          front := some new_front }
      | none => { s with front := none, back := none }
    match usub s1.len 1 with
    | none => none
    | some l => some (some old_front, { s1 with len := l })

/-- `List::pop_back`. -/
def RList.pop_back (s : RList T) : Option (Option Nat × RList T) :=
  match s.back with
  | none => some (none, s)
  | some old_back =>
    let s1 :=
      match (s.heap old_back).prev with
      | some new_back =>
        { s with
          heap := Heap.set s.heap new_back { s.heap new_back with next := none },
          back := some new_back }
      | none => { s with front := none, back := none }
    match usub s1.len 1 with
    | none => none
    | some l => some (some old_back, { s1 with len := l })

/-- `List::front_val`. -/
def RList.front_val (s : RList T) : Option T :=
  s.front.map fun x => (s.heap x).elem

/-- `List::back_val`. -/
def RList.back_val (s : RList T) : Option T :=
  s.back.map fun x => (s.heap x).elem

/-- `List::empty`. -/
def RList.emptyq (s : RList T) : Bool := s.len == 0

/-- `List::cursor_mut` / `CursorMut::new`: no current position. -/
def freshCursor : CursorMut := { idx := none, current := none }

/-- `CursorMut::move_next`.  Reads the list, rewrites only the cursor. -/
def CursorMut.move_next (c : CursorMut) (s : RList T) : CursorMut :=
  match c.current with
  | some node => { idx := some (c.idx.getD 0 + 1), current := (s.heap node).next }
  | none => { idx := some 0, current := s.front }

/-- `CursorMut::move_prev`.  `none` is the index-underflow panic. -/
def CursorMut.move_prev (c : CursorMut) (s : RList T) : Option CursorMut :=
  match c.current with
  | some node =>
    match usub (c.idx.getD 0) 1 with
    | none => none
    | some i => some { idx := some i, current := (s.heap node).prev }
  | none =>
    match usub s.len 1 with
    | none => none
    | some i => some { idx := some i, current := s.back }

/-- `CursorMut::current_value`. -/
def CursorMut.current_value (c : CursorMut) (s : RList T) : Option T :=
  c.current.map fun x => (s.heap x).elem

/-- `CursorMut::remove`.  Returns the detached link, the new cursor and the
new list state; `none` is an arithmetic panic (unreachable on well-formed
states). -/
def CursorMut.remove (c : CursorMut) (s : RList T) :
    Option (Option Nat × CursorMut × RList T) :=
  let link_current := c.current
  let c1 := c.move_next s
  match link_current with
  | none => some (none, c1, s)
  | some p_current =>
    let newIdx : Option (Option Nat) :=
      match c1.idx with
      | none => some none
      | some x => (usub x 1).map some
    match newIdx with
    | none => none
    | some idx2 =>
      let c2 : CursorMut := { c1 with idx := idx2 }
      match (s.heap p_current).prev, (s.heap p_current).next with
      | none, none => s.pop_front.map fun r => (r.1, c2, r.2)
      | none, some _ => s.pop_front.map fun r => (r.1, c2, r.2)
      | some _, none => s.pop_back.map fun r => (r.1, c2, r.2)
      | some p, some n =>
        let h1 := Heap.set s.heap p { s.heap p with next := some n }
        let h2 := Heap.set h1 n { h1 n with prev := some p }
        match usub s.len 1 with
        | none => none
        | some l =>
          let h3 := Heap.set h2 p_current
            { h2 p_current with prev := none, next := none }
          some (some p_current, c2, { s with heap := h3, len := l })

/-- `CursorMut::insert_before`. -/
def CursorMut.insert_before (c : CursorMut) (s : RList T) (node : Nat) :
    CursorMut × RList T :=
  match c.current with
  | none => (c, s)
  | some p_current =>
    match (s.heap p_current).prev with
    | some p_prev =>
      let h1 := Heap.set s.heap p_prev { s.heap p_prev with next := some node }
      let h2 := Heap.set h1 p_current { h1 p_current with prev := some node }
      let h3 := Heap.set h2 node
        { h2 node with prev := some p_prev, next := some p_current }
      ({ c with idx := c.idx.map (· + 1) },
       { s with heap := h3, len := s.len + 1 })
    | none => (c, s.push_front node)

/-! ## Abstraction: the node sequence a well-formed list realises -/

/-- Doubly-linked adjacency: `a`'s next is `b` and `b`'s prev is `a`. -/
def linked (h : Heap T) (a b : Nat) : Prop :=
  (h a).next = some b ∧ (h b).prev = some a

/-- The list state `s` realises the abstract node-id sequence `xs`:
endpoints, length, distinctness, adjacency of consecutive nodes, and `none`
links at the two boundaries. -/
def represents (s : RList T) (xs : List Nat) : Prop :=
  s.front = xs.head? ∧
  s.back = xs.getLast? ∧
  s.len = xs.length ∧
  xs.Nodup ∧
  List.Chain' (linked s.heap) xs ∧
  (∀ a, xs.head? = some a → (s.heap a).prev = none) ∧
  (∀ a, xs.getLast? = some a → (s.heap a).next = none)

/-- The nodes reached by following `next` from a link, with fuel. -/
def nextChain (h : Heap T) : Nat → Option Nat → List Nat
  | 0, _ => []
  | _ + 1, none => []
  | fuel + 1, some i => i :: nextChain h fuel (h i).next

/-- The nodes reached by following `prev` from a link, with fuel. -/
def prevChain (h : Heap T) : Nat → Option Nat → List Nat
  | 0, _ => []
  | _ + 1, none => []
  | fuel + 1, some i => i :: prevChain h fuel (h i).prev

/-! ## Iterated cursor movement and the removal loop -/

/-- Iterated `move_next`, starting from a given cursor. -/
def moveNextIter (c : CursorMut) (s : RList T) : Nat → CursorMut
  | 0 => c
  | k + 1 => (moveNextIter c s k).move_next s

/-- The repository's removal loop
(`while cursor.current_value().is_some() { cursor.remove(); }`),
with explicit fuel, counting successful removals. -/
def removeLoop (fuel : Nat) (c : CursorMut) (s : RList T) :
    Option (Nat × CursorMut × RList T) :=
  match c.current with
  | none => some (0, c, s)
  | some _ =>
    match fuel with
    | 0 => none
    | f + 1 =>
      match c.remove s with
      | none => none
      | some r =>
        (removeLoop f r.2.1 r.2.2).map fun q => (q.1 + 1, q.2.1, q.2.2)

/-- A node the caller may legally hand to `push_front`/`push_back`/
`insert_before`: clean link fields and not currently linked into the list
(the caller contract: "a valid, unlinked node"). -/
def cleanNode (s : RList T) (n : Nat) : Prop :=
  (s.heap n).next = none ∧ (s.heap n).prev = none ∧
    n ∉ nextChain s.heap s.len s.front

/-- One legal operation of the interface.  List-level operations take the
exclusive borrow back (any live cursor is dropped; `cursor_mut` makes a
fresh one); cursor operations act on the live cursor.  A panicking
`move_prev`/`remove`/`pop` has no successor state. -/
inductive Step : CursorMut × RList T → CursorMut × RList T → Prop
  | push_front {c : CursorMut} {s : RList T} {n : Nat} (hn : cleanNode s n) :
      Step (c, s) (freshCursor, s.push_front n)
  | push_back {c : CursorMut} {s : RList T} {n : Nat} (hn : cleanNode s n) :
      Step (c, s) (freshCursor, s.push_back n)
  | pop_front {c : CursorMut} {s : RList T} {r : Option Nat} {s' : RList T}
      (h : s.pop_front = some (r, s')) : Step (c, s) (freshCursor, s')
  | pop_back {c : CursorMut} {s : RList T} {r : Option Nat} {s' : RList T}
      (h : s.pop_back = some (r, s')) : Step (c, s) (freshCursor, s')
  | cursor_mut {c : CursorMut} {s : RList T} : Step (c, s) (freshCursor, s)
  | move_next {c : CursorMut} {s : RList T} : Step (c, s) (c.move_next s, s)
  | move_prev {c c' : CursorMut} {s : RList T} (h : c.move_prev s = some c') :
      Step (c, s) (c', s)
  | remove {c : CursorMut} {s : RList T} {r : Option Nat} {c' : CursorMut}
      {s' : RList T} (h : c.remove s = some (r, c', s')) : Step (c, s) (c', s')
  | insert_before {c : CursorMut} {s : RList T} {n : Nat} (hn : cleanNode s n) :
      Step (c, s) ((c.insert_before s n).1, (c.insert_before s n).2)

/-- The machine invariant: the list realises some abstract sequence and the
cursor, when on a node, is on a node of that sequence. -/
def Inv (p : CursorMut × RList T) : Prop :=
  ∃ xs, represents p.2 xs ∧ ∀ cc, p.1.current = some cc → cc ∈ xs

/-- `List::new()` paired with a fresh cursor. -/
def Init (p : CursorMut × RList T) : Prop :=
  p.1 = freshCursor ∧ p.2.front = none ∧ p.2.back = none ∧ p.2.len = 0

/-- States reachable from a newly created list by legal operations. -/
def Reachable (p : CursorMut × RList T) : Prop :=
  ∃ p0, Init p0 ∧ Relation.ReflTransGen Step p0 p

/-! ## Push-all / pop-all sequences (claim C8) -/

/-- Push each id of `ns`, in order, with `push_front`. -/
def pushFrontAll (s : RList T) (ns : List Nat) : RList T :=
  ns.foldl RList.push_front s

/-- Pop `k` nodes from the back, collecting the returned links in order. -/
def popBackN (s : RList T) : Nat → Option (List (Option Nat) × RList T)
  | 0 => some ([], s)
  | k + 1 =>
    match s.pop_back with
    | none => none
    | some r => (popBackN r.2 k).map fun q => (r.1 :: q.1, q.2)

/-! ## Concrete states for witnesses -/

/-- A concrete all-clean memory over `Nat` payloads. -/
def heap0 : Heap Nat := fun _ => { next := none, prev := none, elem := 0 }

/-- `List::new()` over that memory. -/
def emptyList : RList Nat := RList.new heap0

/-- Pop `k` nodes from the front, collecting the returned links in order. -/
def popFrontN (s : RList T) : Nat → Option (List (Option Nat) × RList T)
  | 0 => some ([], s)
  | k + 1 =>
    match s.pop_front with
    | none => none
    | some r => (popFrontN r.2 k).map fun q => (r.1 :: q.1, q.2)

/-- `[1]`: one node pushed onto the empty list. -/
def oneList : RList Nat := emptyList.push_front 1

/-- `[1, 2]`: two nodes pushed at the back of the empty list. -/
def twoList : RList Nat := (emptyList.push_back 1).push_back 2

/-- `[1, 2, 3]`. -/
def threeList : RList Nat := ((emptyList.push_back 1).push_back 2).push_back 3

/-- A cursor stepped once into `oneList`: position 0, on the front node. -/
def cursorAtFront : CursorMut := freshCursor.move_next oneList

/-- A cursor stepped twice into `twoList`: position 1, on the back node. -/
def cursorAtBack : CursorMut := (freshCursor.move_next twoList).move_next twoList

@[simp] lemma Heap.set_same (h : Heap T) (i : Nat) (n : Node T) :
    Heap.set h i n i = n := by
  simp [Heap.set]

lemma Heap.set_other (h : Heap T) (i : Nat) (n : Node T) {j : Nat} (hj : j ≠ i) :
    Heap.set h i n j = h j := by
  simp [Heap.set, hj]

/-- Chain adjacency only reads `next` of non-last and `prev` of non-first
elements; heaps agreeing there yield the same chain. -/
lemma chain'_linked_congr {h h' : Heap T} : ∀ {xs : List Nat},
    (∀ x ∈ xs.dropLast, (h' x).next = (h x).next) →
    (∀ x ∈ xs.tail, (h' x).prev = (h x).prev) →
    List.Chain' (linked h) xs → List.Chain' (linked h') xs := by
  intro xs
  induction xs with
  | nil => intro _ _ _; simp
  | cons a rest ih =>
    intro hn hp hc
    cases rest with
    | nil => simp
    | cons b t =>
      rw [List.chain'_cons] at hc ⊢
      refine ⟨⟨?_, ?_⟩, ?_⟩
      · rw [hn a (by simp [List.dropLast_cons₂])]
        exact hc.1.1
      · rw [hp b (by simp)]
        exact hc.1.2
      · exact ih
          (fun x hx => hn x (by rw [List.dropLast_cons₂]; exact List.mem_cons_of_mem a hx))
          (fun x hx => hp x (List.mem_cons_of_mem b hx))
          hc.2

/-- Walking `next` from the head of a well-linked terminated chain with
enough fuel reproduces the chain. -/
lemma nextChain_of_chain {h : Heap T} : ∀ {xs : List Nat},
    List.Chain' (linked h) xs →
    (∀ a, xs.getLast? = some a → (h a).next = none) →
    ∀ fuel, xs.length ≤ fuel → nextChain h fuel xs.head? = xs := by
  intro xs
  induction xs with
  | nil =>
    intro _ _ fuel _
    cases fuel <;> simp [nextChain]
  | cons a rest ih =>
    intro hc hl fuel hf
    obtain ⟨f, rfl⟩ : ∃ f, fuel = f + 1 :=
      ⟨fuel - 1, by simp at hf; omega⟩
    have hnext : (h a).next = rest.head? := by
      cases rest with
      | nil => simpa using hl a (by simp)
      | cons b t => simpa using (List.chain'_cons.mp hc).1.1
    simp only [List.head?_cons, nextChain, hnext]
    congr 1
    refine ih hc.tail ?_ f (by simp at hf; omega)
    intro a' ha'
    refine hl a' ?_
    cases rest with
    | nil => simp at ha'
    | cons b t => rw [List.getLast?_cons_cons]; exact ha'

/-- Walking `prev` from the last element of a well-linked chain whose head
has no predecessor reproduces the reversed chain. -/
lemma prevChain_of_chain {h : Heap T} : ∀ {xs : List Nat},
    List.Chain' (linked h) xs →
    (∀ a, xs.head? = some a → (h a).prev = none) →
    ∀ fuel, xs.length ≤ fuel → prevChain h fuel xs.getLast? = xs.reverse := by
  intro xs
  induction xs using List.reverseRecOn with
  | nil =>
    intro _ _ fuel _
    cases fuel <;> simp [prevChain]
  | append_singleton ys a ih =>
    intro hc hh fuel hf
    obtain ⟨f, rfl⟩ : ∃ f, fuel = f + 1 :=
      ⟨fuel - 1, by simp at hf; omega⟩
    have hprev : (h a).prev = ys.getLast? := by
      rcases List.eq_nil_or_concat ys with rfl | ⟨zs, p, rfl⟩
      · simpa using hh a (by simp)
      · rw [List.concat_eq_append] at hc ⊢
        have h3 := (List.chain'_append.mp hc).2.2
        rw [List.getLast?_concat]
        exact (h3 p (by simp) a (by simp)).2
    rw [List.getLast?_concat]
    simp only [prevChain, hprev]
    have hys : prevChain h f ys.getLast? = ys.reverse := by
      refine ih (hc.left_of_append) ?_ f (by simp at hf; omega)
      intro a' ha'
      refine hh a' ?_
      have hne : ys ≠ [] := by
        intro hnil
        rw [hnil] at ha'
        simp at ha'
      rw [List.head?_append_of_ne_nil _ hne]
      exact ha'
    rw [hys]
    simp

/-! ## Structural operations preserve `represents` -/

/-- `push_front` of a clean unlinked node conses it onto the abstract list. -/
lemma push_front_represents {s : RList T} {xs : List Nat} {n : Nat}
    (hs : represents s xs) (hn : n ∉ xs)
    (hnx : (s.heap n).next = none) (hnp : (s.heap n).prev = none) :
    represents (s.push_front n) (n :: xs) := by
  obtain ⟨hf, hb, hl, hd, hc, hhd, hlt⟩ := hs
  cases xs with
  | nil =>
    rw [List.head?_nil] at hf
    simp only [RList.push_front, hf]
    refine ⟨rfl, rfl, by simp at hl; simp [hl], by simp, by simp, ?_, ?_⟩
    · intro a ha
      simp at ha
      subst ha
      exact hnp
    · intro a ha
      simp at ha
      subst ha
      exact hnx
  | cons a rest =>
    rw [List.head?_cons] at hf
    have hna : n ≠ a := fun h => hn (h ▸ List.mem_cons_self a rest)
    simp only [RList.push_front, hf]
    set h1 := Heap.set s.heap n { s.heap n with next := some a } with hh1
    set h2 := Heap.set h1 a { h1 a with prev := some n } with hh2
    have h2n : h2 n = { s.heap n with next := some a } := by
      rw [hh2, Heap.set_other _ _ _ hna, hh1, Heap.set_same]
    have h2a_prev : (h2 a).prev = some n := by
      rw [hh2, Heap.set_same]
    have h2a_next : (h2 a).next = (s.heap a).next := by
      rw [hh2, Heap.set_same]
      show (h1 a).next = _
      rw [hh1, Heap.set_other _ _ _ (Ne.symm hna)]
    have h2other : ∀ x, x ≠ n → x ≠ a → h2 x = s.heap x := by
      intro x hxn hxa
      rw [hh2, Heap.set_other _ _ _ hxa, hh1, Heap.set_other _ _ _ hxn]
    have h2next : ∀ x, x ≠ n → (h2 x).next = (s.heap x).next := by
      intro x hxn
      by_cases hxa : x = a
      · subst hxa; exact h2a_next
      · rw [h2other x hxn hxa]
    refine ⟨rfl, ?_, ?_, ?_, ?_, ?_, ?_⟩
    · rw [hb, List.getLast?_cons_cons]
    · simp [hl]
    · exact List.nodup_cons.mpr ⟨hn, hd⟩
    · dsimp only
      rw [List.chain'_cons]
      refine ⟨⟨by rw [h2n], h2a_prev⟩, ?_⟩
      refine chain'_linked_congr ?_ ?_ hc
      · intro x hx
        exact h2next x (fun h => hn (h ▸ List.mem_of_mem_dropLast hx))
      · intro x hx
        rw [List.tail_cons] at hx
        have hxn : x ≠ n := fun h => hn (h ▸ List.mem_cons_of_mem a hx)
        have hxa : x ≠ a := fun h => (List.nodup_cons.mp hd).1 (h ▸ hx)
        rw [h2other x hxn hxa]
    · intro b hbeq
      rw [List.head?_cons, Option.some_inj] at hbeq
      subst hbeq
      dsimp only
      rw [h2n]
      exact hnp
    · intro b hbeq
      rw [List.getLast?_cons_cons] at hbeq
      have hbmem : b ∈ a :: rest := List.mem_of_mem_getLast? hbeq
      have hbn : b ≠ n := fun h => hn (h ▸ hbmem)
      dsimp only
      rw [h2next b hbn]
      exact hlt b hbeq

/-- `push_back` of a clean unlinked node appends it to the abstract list. -/
lemma push_back_represents {s : RList T} {xs : List Nat} {n : Nat}
    (hs : represents s xs) (hn : n ∉ xs)
    (hnx : (s.heap n).next = none) (hnp : (s.heap n).prev = none) :
    represents (s.push_back n) (xs ++ [n]) := by
  obtain ⟨hf, hb, hl, hd, hc, hhd, hlt⟩ := hs
  rcases List.eq_nil_or_concat xs with rfl | ⟨ys, b, rfl⟩
  · rw [List.getLast?_nil] at hb
    simp only [RList.push_back, hb]
    refine ⟨rfl, rfl, by simp at hl; simp [hl], by simp, by simp, ?_, ?_⟩
    · intro a ha
      simp at ha
      subst ha
      exact hnp
    · intro a ha
      simp at ha
      subst ha
      exact hnx
  · rw [List.concat_eq_append] at hf hb hl hd hc hhd hlt hn ⊢
    rw [List.getLast?_concat] at hb
    have hnb : n ≠ b := fun h => hn (h ▸ List.mem_append_right ys (by simp))
    simp only [RList.push_back, hb]
    set h1 := Heap.set s.heap n { s.heap n with prev := some b } with hh1
    set h2 := Heap.set h1 b { h1 b with next := some n } with hh2
    have h2n : h2 n = { s.heap n with prev := some b } := by
      rw [hh2, Heap.set_other _ _ _ hnb, hh1, Heap.set_same]
    have h2b_next : (h2 b).next = some n := by
      rw [hh2, Heap.set_same]
    have h2b_prev : (h2 b).prev = (s.heap b).prev := by
      rw [hh2, Heap.set_same]
      show (h1 b).prev = _
      rw [hh1, Heap.set_other _ _ _ (Ne.symm hnb)]
    have h2other : ∀ x, x ≠ n → x ≠ b → h2 x = s.heap x := by
      intro x hxn hxb
      rw [hh2, Heap.set_other _ _ _ hxb, hh1, Heap.set_other _ _ _ hxn]
    have h2prev : ∀ x, x ≠ n → (h2 x).prev = (s.heap x).prev := by
      intro x hxn
      by_cases hxb : x = b
      · subst hxb; exact h2b_prev
      · rw [h2other x hxn hxb]
    have hys_ne : ys ++ [b] ≠ [] := by simp
    refine ⟨?_, ?_, ?_, ?_, ?_, ?_, ?_⟩
    · rw [hf, List.head?_append_of_ne_nil _ hys_ne]
    · rw [List.append_assoc]
      rw [List.getLast?_append_of_ne_nil _ (by simp : ([b] ++ [n] : List Nat) ≠ [])]
      simp
    · simp [hl]
    · refine List.nodup_append.mpr ⟨hd, List.nodup_singleton n, ?_⟩
      intro x hx hmem
      simp at hmem
      subst hmem
      exact hn hx
    · dsimp only
      refine List.Chain'.append ?_ (by simp) ?_
      · refine chain'_linked_congr ?_ ?_ hc
        · intro x hx
          rw [List.dropLast_concat] at hx
          have hbys : b ∉ ys := fun hmem => (List.nodup_append.mp hd).2.2 hmem (by simp)
          have hxn : x ≠ n := fun h => hn (h ▸ List.mem_append_left [b] hx)
          have hxb : x ≠ b := fun h => hbys (h ▸ hx)
          rw [h2other x hxn hxb]
        · intro x hx
          exact h2prev x (fun h => hn (h ▸ List.mem_of_mem_tail hx))
      · intro x hx y hy
        rw [List.getLast?_concat] at hx
        simp at hx hy
        subst hx
        subst hy
        exact ⟨h2b_next, by rw [h2n]⟩
    · intro a ha
      rw [List.head?_append_of_ne_nil _ hys_ne] at ha
      have ham : a ∈ ys ++ [b] := List.mem_of_mem_head? ha
      have han : a ≠ n := fun h => hn (h ▸ ham)
      dsimp only
      rw [h2prev a han]
      exact hhd a ha
    · intro a ha
      rw [List.append_assoc] at ha
      rw [List.getLast?_append_of_ne_nil _ (by simp : ([b] ++ [n] : List Nat) ≠ [])] at ha
      simp at ha
      subst ha
      dsimp only
      rw [h2n]
      exact hnx

/-- `pop_front` on an empty well-formed list returns `none` unchanged. -/
lemma pop_front_nil {s : RList T} (hs : represents s ([] : List Nat)) :
    s.pop_front = some (none, s) := by
  obtain ⟨hf, _⟩ := hs
  rw [List.head?_nil] at hf
  simp [RList.pop_front, hf]

/-- `pop_back` on an empty well-formed list returns `none` unchanged. -/
lemma pop_back_nil {s : RList T} (hs : represents s ([] : List Nat)) :
    s.pop_back = some (none, s) := by
  obtain ⟨-, hb, -⟩ := hs
  rw [List.getLast?_nil] at hb
  simp [RList.pop_back, hb]

/-- `pop_front` on a nonempty well-formed list detaches the head. -/
lemma pop_front_cons {s : RList T} {a : Nat} {rest : List Nat}
    (hs : represents s (a :: rest)) :
    ∃ s', s.pop_front = some (some a, s') ∧ represents s' rest := by
  obtain ⟨hf, hb, hl, hd, hc, hhd, hlt⟩ := hs
  rw [List.head?_cons] at hf
  have hnext : (s.heap a).next = rest.head? := by
    cases rest with
    | nil => simpa using hlt a (by simp)
    | cons b t => simpa using (List.chain'_cons.mp hc).1.1
  cases rest with
  | nil =>
    rw [List.head?_nil] at hnext
    have hlen : s.len = 1 := by simpa using hl
    have hpop : s.pop_front
        = some (some a, { s with front := none, back := none, len := 0 }) := by
      simp [RList.pop_front, hf, hnext, usub, hlen]
    exact ⟨_, hpop, rfl, rfl, rfl, by simp, by simp, by simp, by simp⟩
  | cons b t =>
    rw [List.head?_cons] at hnext
    have hlen : s.len = t.length + 2 := by simpa using hl
    set h' := Heap.set s.heap b { s.heap b with prev := none } with hh'
    have hnpres : ∀ x, (h' x).next = (s.heap x).next := by
      intro x
      by_cases hxb : x = b
      · subst hxb; rw [hh', Heap.set_same]
      · rw [hh', Heap.set_other _ _ _ hxb]
    have hpop : s.pop_front
        = some (some a, { s with heap := h', front := some b, len := t.length + 1 }) := by
      simp [RList.pop_front, hf, hnext, usub, hlen, hh']
    refine ⟨_, hpop, rfl, ?_, rfl, (List.nodup_cons.mp hd).2, ?_, ?_, ?_⟩
    · dsimp only
      rw [hb, List.getLast?_cons_cons]
    · dsimp only
      refine chain'_linked_congr (fun x _ => hnpres x) ?_ (List.Chain'.tail hc)
      intro x hx
      rw [List.tail_cons] at hx
      have hxb : x ≠ b :=
        fun h => (List.nodup_cons.mp (List.nodup_cons.mp hd).2).1 (h ▸ hx)
      rw [hh', Heap.set_other _ _ _ hxb]
    · intro c hcx
      rw [List.head?_cons, Option.some_inj] at hcx
      subst hcx
      dsimp only
      rw [hh', Heap.set_same]
    · intro c hcx
      dsimp only
      rw [hnpres c]
      exact hlt c (by rw [List.getLast?_cons_cons]; exact hcx)

/-- `pop_back` on a nonempty well-formed list detaches the last node. -/
lemma pop_back_concat {s : RList T} {a : Nat} {ys : List Nat}
    (hs : represents s (ys ++ [a])) :
    ∃ s', s.pop_back = some (some a, s') ∧ represents s' ys := by
  obtain ⟨hf, hb, hl, hd, hc, hhd, hlt⟩ := hs
  rw [List.getLast?_concat] at hb
  have hprev : (s.heap a).prev = ys.getLast? := by
    rcases List.eq_nil_or_concat ys with rfl | ⟨zs, p, rfl⟩
    · simpa using hhd a (by simp)
    · rw [List.concat_eq_append] at hc ⊢
      have h3 := (List.chain'_append.mp hc).2.2
      rw [List.getLast?_concat]
      exact (h3 p (by simp) a (by simp)).2
  rcases List.eq_nil_or_concat ys with rfl | ⟨zs, p, rfl⟩
  · rw [List.getLast?_nil] at hprev
    have hlen : s.len = 1 := by simpa using hl
    have hpop : s.pop_back
        = some (some a, { s with front := none, back := none, len := 0 }) := by
      simp [RList.pop_back, hb, hprev, usub, hlen]
    exact ⟨_, hpop, rfl, rfl, rfl, by simp, by simp, by simp, by simp⟩
  · rw [List.concat_eq_append] at hf hl hd hc hhd hlt hprev ⊢
    rw [List.getLast?_concat] at hprev
    have hlen : s.len = zs.length + 2 := by simpa using hl
    set h' := Heap.set s.heap p { s.heap p with next := none } with hh'
    have hppres : ∀ x, (h' x).prev = (s.heap x).prev := by
      intro x
      by_cases hxp : x = p
      · subst hxp; rw [hh', Heap.set_same]
      · rw [hh', Heap.set_other _ _ _ hxp]
    have hpa : p ∉ zs := fun hmem =>
      (List.nodup_append.mp (List.nodup_append.mp hd).1).2.2 hmem (by simp)
    have hpop : s.pop_back
        = some (some a, { s with heap := h', back := some p, len := zs.length + 1 }) := by
      simp [RList.pop_back, hb, hprev, usub, hlen, hh']
    have hzsne : zs ++ [p] ≠ [] := by simp
    have hheads : (zs ++ [p] ++ [a]).head? = (zs ++ [p]).head? := by
      cases zs <;> simp
    refine ⟨_, hpop, ?_, ?_, ?_, (List.nodup_append.mp hd).1, ?_, ?_, ?_⟩
    · dsimp only
      rw [hf, hheads]
    · dsimp only
      rw [List.getLast?_concat]
    · dsimp only
      simp [hlen]
    · dsimp only
      refine chain'_linked_congr ?_ (fun x _ => hppres x) (hc.left_of_append)
      intro x hx
      rw [List.dropLast_concat] at hx
      have hxp : x ≠ p := fun h => hpa (h ▸ hx)
      rw [hh', Heap.set_other _ _ _ hxp]
    · intro c hcx
      dsimp only
      rw [hppres c]
      refine hhd c ?_
      rw [hheads]
      exact hcx
    · intro c hcx
      rw [List.getLast?_concat, Option.some_inj] at hcx
      subst hcx
      dsimp only
      rw [hh', Heap.set_same]

@[simp] lemma usub_succ_one (x : Nat) : usub (x + 1) 1 = some x := by
  simp [usub]

/-- At any split of the abstract list, the middle node's `prev`/`next`
fields point at the end of the prefix and the start of the suffix. -/
lemma represents_split_fields {s : RList T} {u v : List Nat} {cc : Nat}
    (hs : represents s (u ++ cc :: v)) :
    (s.heap cc).prev = u.getLast? ∧ (s.heap cc).next = v.head? := by
  obtain ⟨hf, hb, hl, hd, hchain, hhd, hlt⟩ := hs
  constructor
  · rcases List.eq_nil_or_concat u with rfl | ⟨zs, p, rfl⟩
    · simpa using hhd cc (by simp)
    · rw [List.concat_eq_append] at hchain ⊢
      rw [List.getLast?_concat]
      have h3 := (List.chain'_append.mp hchain).2.2
      exact (h3 p (by simp) cc (by simp)).2
  · cases v with
    | nil =>
      have hlast : (u ++ [cc]).getLast? = some cc := List.getLast?_concat ..
      simpa using hlt cc hlast
    | cons b t =>
      have h3 := (List.chain'_append.mp hchain).2.1
      simpa using (List.chain'_cons.mp h3).1.1

/-- A linked node splits the abstract list, with its `prev`/`next` fields
pointing at the end of the prefix and the start of the suffix. -/
lemma represents_mem_split {s : RList T} {xs : List Nat} {cc : Nat}
    (hs : represents s xs) (hc : cc ∈ xs) :
    ∃ u v, xs = u ++ cc :: v ∧ (s.heap cc).prev = u.getLast?
      ∧ (s.heap cc).next = v.head? := by
  obtain ⟨u, v, rfl⟩ := List.append_of_mem hc
  exact ⟨u, v, rfl, represents_split_fields hs⟩

/-- Following `next` from a linked node stays inside the list. -/
lemma represents_next_mem {s : RList T} {xs : List Nat} {cc d : Nat}
    (hs : represents s xs) (hc : cc ∈ xs) (hn : (s.heap cc).next = some d) :
    d ∈ xs := by
  obtain ⟨u, v, rfl, -, hnext⟩ := represents_mem_split hs hc
  rw [hnext] at hn
  exact List.mem_append_right u (List.mem_cons_of_mem cc (List.mem_of_mem_head? hn))

/-- Following `prev` from a linked node stays inside the list. -/
lemma represents_prev_mem {s : RList T} {xs : List Nat} {cc d : Nat}
    (hs : represents s xs) (hc : cc ∈ xs) (hp : (s.heap cc).prev = some d) :
    d ∈ xs := by
  obtain ⟨u, v, rfl, hprev, -⟩ := represents_mem_split hs hc
  rw [hprev] at hp
  exact List.mem_append_left _ (List.mem_of_mem_getLast? hp)

/-- `remove` with the cursor on a linked node: detaches exactly that node,
advances the cursor to the old successor, and restores the stored index. -/
lemma remove_represents {s : RList T} {u v : List Nat} {cc : Nat} {c : CursorMut}
    (hs : represents s (u ++ cc :: v)) (hcur : c.current = some cc) :
    ∃ s', c.remove s = some (some cc, ⟨some (c.idx.getD 0), v.head?⟩, s') ∧
      represents s' (u ++ v) := by
  obtain ⟨hprev, hnext⟩ := represents_split_fields hs
  rcases List.eq_nil_or_concat u with rfl | ⟨zs, p, rfl⟩
  · -- cc is the front node (prev is none): `pop_front` path
    rw [List.getLast?_nil] at hprev
    rw [List.nil_append] at hs ⊢
    obtain ⟨s', hpop, hrep⟩ := pop_front_cons hs
    refine ⟨s', ?_, hrep⟩
    cases v with
    | nil =>
      rw [List.head?_nil] at hnext
      simp [CursorMut.remove, CursorMut.move_next, hcur, hprev, hnext, hpop]
    | cons b t =>
      rw [List.head?_cons] at hnext
      simp [CursorMut.remove, CursorMut.move_next, hcur, hprev, hnext, hpop]
  · rw [List.concat_eq_append] at hs hprev ⊢
    rw [List.getLast?_concat] at hprev
    have hu_ne : (zs ++ [p] : List Nat) ≠ [] := by simp
    cases v with
    | nil =>
      -- cc is the back node with a predecessor: `pop_back` path
      rw [List.head?_nil] at hnext
      obtain ⟨s', hpop, hrep⟩ := pop_back_concat hs
      refine ⟨s', ?_, by simpa using hrep⟩
      simp [CursorMut.remove, CursorMut.move_next, hcur, hprev, hnext, hpop]
    | cons b t =>
      -- interior node: direct splice
      rw [List.head?_cons] at hnext
      obtain ⟨hf, hb, hl, hd, hchain, hhd, hlt⟩ := hs
      have hmid := List.nodup_cons.mp (List.nodup_middle.mp hd)
      have hccu : cc ∉ zs ++ [p] := fun h => hmid.1 (List.mem_append_left _ h)
      have hccv : cc ∉ b :: t := fun h => hmid.1 (List.mem_append_right _ h)
      have hsplit := List.nodup_append.mp hmid.2
      have hdisj := hsplit.2.2
      have hpu : p ∈ zs ++ [p] := by simp
      have hbv : b ∈ b :: t := by simp
      have hpb : p ≠ b := fun h => hdisj hpu (h ▸ hbv)
      have hpcc : p ≠ cc := fun h => hccu (h ▸ hpu)
      have hbcc : b ≠ cc := fun h => hccv (h ▸ hbv)
      set h1 := Heap.set s.heap p { s.heap p with next := some b } with hh1
      set h2 := Heap.set h1 b { h1 b with prev := some p } with hh2
      set h3 := Heap.set h2 cc { h2 cc with prev := none, next := none } with hh3
      have hnpres : ∀ x, x ≠ cc → x ≠ p → (h3 x).next = (s.heap x).next := by
        intro x hxcc hxp
        rw [hh3, Heap.set_other _ _ _ hxcc]
        by_cases hxb : x = b
        · subst hxb
          rw [hh2, Heap.set_same]
          show (h1 x).next = _
          rw [hh1, Heap.set_other _ _ _ hxp]
        · rw [hh2, Heap.set_other _ _ _ hxb, hh1, Heap.set_other _ _ _ hxp]
      have hppres : ∀ x, x ≠ cc → x ≠ b → (h3 x).prev = (s.heap x).prev := by
        intro x hxcc hxb
        rw [hh3, Heap.set_other _ _ _ hxcc, hh2, Heap.set_other _ _ _ hxb]
        by_cases hxp : x = p
        · subst hxp
          rw [hh1, Heap.set_same]
        · rw [hh1, Heap.set_other _ _ _ hxp]
      have h3p : (h3 p).next = some b := by
        rw [hh3, Heap.set_other _ _ _ hpcc, hh2, Heap.set_other _ _ _ hpb, hh1,
          Heap.set_same]
      have h3b : (h3 b).prev = some p := by
        rw [hh3, Heap.set_other _ _ _ hbcc, hh2, Heap.set_same]
      have hlen : s.len = (zs ++ [p]).length + t.length + 2 := by
        rw [hl]
        simp
        omega
      have hrem : c.remove s = some (some cc,
          ⟨some (c.idx.getD 0), some b⟩,
          { s with heap := h3, len := (zs ++ [p]).length + t.length + 1 }) := by
        simp [CursorMut.remove, CursorMut.move_next, hcur, hprev, hnext, usub,
          hlen, hh1, hh2, hh3]
      refine ⟨_, hrem, ?_, ?_, ?_, hmid.2, ?_, ?_, ?_⟩
      · dsimp only
        rw [hf, List.head?_append_of_ne_nil _ hu_ne, List.head?_append_of_ne_nil _ hu_ne]
      · dsimp only
        rw [hb, List.getLast?_append_of_ne_nil _ (by simp : (cc :: b :: t : List Nat) ≠ []),
          List.getLast?_append_of_ne_nil _ (by simp : (b :: t : List Nat) ≠ []),
          List.getLast?_cons_cons]
      · dsimp only
        simp
        omega
      · dsimp only
        refine List.Chain'.append ?_ ?_ ?_
        · refine chain'_linked_congr ?_ ?_ (hchain.left_of_append)
          · intro x hx
            rw [List.dropLast_concat] at hx
            have hxu : x ∈ zs ++ [p] := List.mem_append_left _ hx
            have hzsp : p ∉ zs := fun hmem =>
              (List.nodup_append.mp hsplit.1).2.2 hmem (by simp)
            exact hnpres x (fun h => hccu (h ▸ hxu)) (fun h => hzsp (h ▸ hx))
          · intro x hx
            have hxu : x ∈ zs ++ [p] := List.mem_of_mem_tail hx
            exact hppres x (fun h => hccu (h ▸ hxu)) (fun h => hdisj (h ▸ hxu) hbv)
        · refine chain'_linked_congr ?_ ?_ ((hchain.right_of_append).tail)
          · intro x hx
            have hxv : x ∈ b :: t := List.mem_of_mem_dropLast hx
            exact hnpres x (fun h => hccv (h ▸ hxv)) (fun h => hdisj hpu (h ▸ hxv))
          · intro x hx
            rw [List.tail_cons] at hx
            have hxv : x ∈ b :: t := List.mem_cons_of_mem b hx
            have hxb : x ≠ b := fun h => (List.nodup_cons.mp hsplit.2.1).1 (h ▸ hx)
            exact hppres x (fun h => hccv (h ▸ hxv)) hxb
        · intro x hx y hy
          rw [List.getLast?_concat, Option.mem_def, Option.some_inj] at hx
          rw [List.head?_cons, Option.mem_def, Option.some_inj] at hy
          subst hx
          subst hy
          exact ⟨h3p, h3b⟩
      · intro a0 ha0
        rw [List.head?_append_of_ne_nil _ hu_ne] at ha0
        have ha0u : a0 ∈ zs ++ [p] := List.mem_of_mem_head? ha0
        dsimp only
        rw [hppres a0 (fun h => hccu (h ▸ ha0u)) (fun h => hdisj (h ▸ ha0u) hbv)]
        refine hhd a0 ?_
        rw [List.head?_append_of_ne_nil _ hu_ne]
        exact ha0
      · intro l hlx
        rw [List.getLast?_append_of_ne_nil _ (by simp : (b :: t : List Nat) ≠ [])] at hlx
        have hlv : l ∈ b :: t := List.mem_of_mem_getLast? hlx
        dsimp only
        rw [hnpres l (fun h => hccv (h ▸ hlv)) (fun h => hdisj hpu (h ▸ hlv))]
        refine hlt l ?_
        rw [List.getLast?_append_of_ne_nil _ (by simp : (cc :: b :: t : List Nat) ≠ []),
          List.getLast?_cons_cons]
        exact hlx

/-- `insert_before` with the cursor on a linked node splices the fresh node
just before it; the cursor keeps pointing at the same node. -/
lemma insert_before_represents {s : RList T} {u v : List Nat} {cc n : Nat}
    {c : CursorMut}
    (hs : represents s (u ++ cc :: v)) (hcur : c.current = some cc)
    (hn : n ∉ u ++ cc :: v)
    (hnx : (s.heap n).next = none) (hnp : (s.heap n).prev = none) :
    represents (c.insert_before s n).2 (u ++ n :: cc :: v) ∧
      (c.insert_before s n).1.current = some cc := by
  obtain ⟨hprev, hnext⟩ := represents_split_fields hs
  rcases List.eq_nil_or_concat u with rfl | ⟨zs, p, rfl⟩
  · -- the cursor is at the front: `push_front` path
    rw [List.getLast?_nil] at hprev
    rw [List.nil_append] at hs hn ⊢
    have hins : c.insert_before s n = (c, s.push_front n) := by
      simp [CursorMut.insert_before, hcur, hprev]
    rw [hins]
    exact ⟨push_front_represents hs hn hnx hnp, hcur⟩
  · rw [List.concat_eq_append] at hs hprev hn ⊢
    rw [List.getLast?_concat] at hprev
    have hu_ne : (zs ++ [p] : List Nat) ≠ [] := by simp
    obtain ⟨hf, hb, hl, hd, hchain, hhd, hlt⟩ := hs
    have hmid := List.nodup_cons.mp (List.nodup_middle.mp hd)
    have hccu : cc ∉ zs ++ [p] := fun h => hmid.1 (List.mem_append_left _ h)
    have hsplit := List.nodup_append.mp hd
    have hdisj := hsplit.2.2
    have hpu : p ∈ zs ++ [p] := by simp
    have hpcc : p ≠ cc := fun h => hccu (h ▸ hpu)
    have hnu : n ∉ zs ++ [p] := fun h => hn (List.mem_append_left _ h)
    have hncv : n ∉ cc :: v := fun h => hn (List.mem_append_right _ h)
    have hnp2 : n ≠ p := fun h => hnu (h ▸ hpu)
    have hncc : n ≠ cc := fun h => hncv (h ▸ List.mem_cons_self cc v)
    set h1 := Heap.set s.heap p { s.heap p with next := some n } with hh1
    set h2 := Heap.set h1 cc { h1 cc with prev := some n } with hh2
    set h3 := Heap.set h2 n { h2 n with prev := some p, next := some cc } with hh3
    have hins : c.insert_before s n
        = ({ c with idx := c.idx.map (· + 1) }, { s with heap := h3, len := s.len + 1 }) := by
      simp [CursorMut.insert_before, hcur, hprev, hh1, hh2, hh3]
    have hnpres : ∀ x, x ≠ n → x ≠ p → (h3 x).next = (s.heap x).next := by
      intro x hxn hxp
      rw [hh3, Heap.set_other _ _ _ hxn]
      by_cases hxcc : x = cc
      · subst hxcc
        rw [hh2, Heap.set_same]
        show (h1 x).next = _
        rw [hh1, Heap.set_other _ _ _ hxp]
      · rw [hh2, Heap.set_other _ _ _ hxcc, hh1, Heap.set_other _ _ _ hxp]
    have hppres : ∀ x, x ≠ n → x ≠ cc → (h3 x).prev = (s.heap x).prev := by
      intro x hxn hxcc
      rw [hh3, Heap.set_other _ _ _ hxn, hh2, Heap.set_other _ _ _ hxcc]
      by_cases hxp : x = p
      · subst hxp
        rw [hh1, Heap.set_same]
      · rw [hh1, Heap.set_other _ _ _ hxp]
    have h3p_next : (h3 p).next = some n := by
      rw [hh3, Heap.set_other _ _ _ hnp2.symm, hh2, Heap.set_other _ _ _ hpcc, hh1,
        Heap.set_same]
    have h3cc_prev : (h3 cc).prev = some n := by
      rw [hh3, Heap.set_other _ _ _ hncc.symm, hh2, Heap.set_same]
    have h3cc_next : (h3 cc).next = (s.heap cc).next := by
      exact hnpres cc hncc.symm (Ne.symm hpcc)
    have h3n_prev : (h3 n).prev = some p := by
      rw [hh3, Heap.set_same]
    have h3n_next : (h3 n).next = some cc := by
      rw [hh3, Heap.set_same]
    rw [hins]
    refine ⟨⟨?_, ?_, ?_, ?_, ?_, ?_, ?_⟩, hcur⟩
    · dsimp only
      rw [hf, List.head?_append_of_ne_nil _ hu_ne, List.head?_append_of_ne_nil _ hu_ne]
    · dsimp only
      rw [hb, List.getLast?_append_of_ne_nil _ (by simp : (cc :: v : List Nat) ≠ []),
        List.getLast?_append_of_ne_nil _ (by simp : (n :: cc :: v : List Nat) ≠ []),
        List.getLast?_cons_cons]
    · dsimp only
      rw [hl]
      simp
      omega
    · rw [List.nodup_middle (a := n)]
      exact List.nodup_cons.mpr ⟨hn, hd⟩
    · dsimp only
      refine List.Chain'.append ?_ ?_ ?_
      · refine chain'_linked_congr ?_ ?_ (hchain.left_of_append)
        · intro x hx
          rw [List.dropLast_concat] at hx
          have hzsp : p ∉ zs := fun hmem =>
            (List.nodup_append.mp hsplit.1).2.2 hmem (by simp)
          have hxu : x ∈ zs ++ [p] := List.mem_append_left _ hx
          exact hnpres x (fun h => hnu (h.symm ▸ hxu)) (fun h => hzsp (h ▸ hx))
        · intro x hx
          have hxu : x ∈ zs ++ [p] := List.mem_of_mem_tail hx
          exact hppres x (fun h => hnu (h.symm ▸ hxu)) (fun h => hccu (h ▸ hxu))
      · rw [List.chain'_cons]
        refine ⟨⟨h3n_next, h3cc_prev⟩, ?_⟩
        refine chain'_linked_congr ?_ ?_ (hchain.right_of_append)
        · intro x hx
          have hxv : x ∈ cc :: v := List.mem_of_mem_dropLast hx
          exact hnpres x (fun h => hncv (h.symm ▸ hxv)) (fun h => hdisj hpu (h ▸ hxv))
        · intro x hx
          rw [List.tail_cons] at hx
          have hxcc : x ≠ cc := fun h =>
            (List.nodup_cons.mp hsplit.2.1).1 (h ▸ hx)
          have hxv : x ∈ cc :: v := List.mem_cons_of_mem cc hx
          exact hppres x (fun h => hncv (h.symm ▸ hxv)) hxcc
      · intro x hx y hy
        rw [List.getLast?_concat, Option.mem_def, Option.some_inj] at hx
        rw [List.head?_cons, Option.mem_def, Option.some_inj] at hy
        subst hx
        subst hy
        exact ⟨h3p_next, h3n_prev⟩
    · intro a0 ha0
      rw [List.head?_append_of_ne_nil _ hu_ne] at ha0
      have ha0u : a0 ∈ zs ++ [p] := List.mem_of_mem_head? ha0
      dsimp only
      rw [hppres a0 (fun h => hnu (h.symm ▸ ha0u)) (fun h => hccu (h ▸ ha0u))]
      refine hhd a0 ?_
      rw [List.head?_append_of_ne_nil _ hu_ne]
      exact ha0
    · intro l hlx
      rw [List.getLast?_append_of_ne_nil _ (by simp : (n :: cc :: v : List Nat) ≠ []),
        List.getLast?_cons_cons] at hlx
      have hlv : l ∈ cc :: v := List.mem_of_mem_getLast? hlx
      dsimp only
      rw [hnpres l (fun h => hncv (h.symm ▸ hlv)) (fun h => hdisj hpu (h ▸ hlv))]
      refine hlt l ?_
      rw [List.getLast?_append_of_ne_nil _ (by simp : (cc :: v : List Nat) ≠ [])]
      exact hlx

/-- The `next` field of the `k`-th linked node points at the `(k+1)`-st
entry (or is `none` at the back). -/
lemma next_at {s : RList T} {xs : List Nat} (hs : represents s xs)
    (k : Nat) (hk : k < xs.length) :
    (s.heap (xs.get ⟨k, hk⟩)).next = xs[k + 1]? := by
  by_cases hk1 : k + 1 < xs.length
  · have hch := hs.2.2.2.2.1
    have hlk := List.chain'_iff_get.mp hch k (by omega)
    rw [List.getElem?_eq_getElem hk1, List.get_eq_getElem]
    exact hlk.1
  · have hlast : xs.getLast? = some (xs.get ⟨k, hk⟩) := by
      have hkeq : xs.length - 1 = k := by omega
      rw [List.getLast?_eq_getElem?, hkeq, List.getElem?_eq_getElem hk,
        List.get_eq_getElem]
    rw [hs.2.2.2.2.2.2 _ hlast, List.getElem?_eq_none (by omega : xs.length ≤ k + 1)]

/-- After `i+1` fresh `move_next` steps the cursor holds index `i` and the
`i`-th node of the abstract list. -/
lemma moveNextIter_fresh {s : RList T} {xs : List Nat} (hs : represents s xs) :
    ∀ i, i < xs.length →
      moveNextIter freshCursor s (i + 1) = ⟨some i, xs[i]?⟩ := by
  intro i
  induction i with
  | zero =>
    intro _
    have hf := hs.1
    simp [moveNextIter, CursorMut.move_next, freshCursor, hf, List.head?_eq_getElem?]
  | succ k ih =>
    intro h
    have hk : k < xs.length := by omega
    have hx : xs[k]? = some (xs.get ⟨k, hk⟩) := by
      rw [List.getElem?_eq_getElem hk, List.get_eq_getElem]
    have hnx := next_at hs k hk
    rw [List.get_eq_getElem] at hx hnx
    show (moveNextIter freshCursor s (k + 1)).move_next s = _
    rw [ih hk]
    simp [CursorMut.move_next, hx, hnx]

/-- Running the removal loop with the cursor at the head of the suffix `v`
removes exactly the `v.length` nodes of `v`, leaving the prefix `u`. -/
lemma removeLoop_spec {u : List Nat} : ∀ (v : List Nat) (c : CursorMut)
    (s : RList T), represents s (u ++ v) → c.current = v.head? →
    ∃ c' s', removeLoop v.length c s = some (v.length, c', s') ∧
      represents s' u ∧ c'.current = none := by
  intro v
  induction v with
  | nil =>
    intro c s hs hc
    rw [List.head?_nil] at hc
    exact ⟨c, s, by simp [removeLoop, hc], by simpa using hs, hc⟩
  | cons b t ih =>
    intro c s hs hc
    rw [List.head?_cons] at hc
    obtain ⟨s1, hrem, hrep⟩ := remove_represents hs hc
    obtain ⟨c2, s2, hloop, hrep2, hcur2⟩ :=
      ih ⟨some (c.idx.getD 0), t.head?⟩ s1 hrep rfl
    refine ⟨c2, s2, ?_, hrep2, hcur2⟩
    simp [removeLoop, hc, hrem, hloop]

/-! ## Reachable states (claim C1) -/

/-- Walking `next` from the front with `len` fuel reproduces the abstract
list of a well-formed state. -/
lemma represents_nextChain {s : RList T} {xs : List Nat} (hs : represents s xs) :
    nextChain s.heap s.len s.front = xs := by
  rw [hs.1, hs.2.2.1]
  exact nextChain_of_chain hs.2.2.2.2.1 hs.2.2.2.2.2.2 _ le_rfl

lemma Init_inv {p : CursorMut × RList T} (h : Init p) : Inv p := by
  refine ⟨[], ⟨?_, ?_, ?_, by simp, by simp, by simp, by simp⟩, ?_⟩
  · rw [h.2.1]; rfl
  · rw [h.2.2.1]; rfl
  · rw [h.2.2.2]; rfl
  · intro cc hc
    rw [h.1] at hc
    cases hc

lemma Inv_step {p q : CursorMut × RList T} (hp : Inv p) (hstep : Step p q) :
    Inv q := by
  obtain ⟨xs, hrep, hcur⟩ := hp
  cases hstep with
  | push_front hn =>
    obtain ⟨hnx, hnp, hnm⟩ := hn
    rw [represents_nextChain hrep] at hnm
    exact ⟨_, push_front_represents hrep hnm hnx hnp, by simp [freshCursor]⟩
  | push_back hn =>
    obtain ⟨hnx, hnp, hnm⟩ := hn
    rw [represents_nextChain hrep] at hnm
    exact ⟨_, push_back_represents hrep hnm hnx hnp, by simp [freshCursor]⟩
  | pop_front h =>
    cases xs with
    | nil =>
      rw [pop_front_nil hrep, Option.some_inj] at h
      injection h with h1 h2
      subst h2
      exact ⟨[], hrep, by simp [freshCursor]⟩
    | cons a rest =>
      obtain ⟨s1, hpop, hrep1⟩ := pop_front_cons hrep
      rw [hpop, Option.some_inj] at h
      injection h with h1 h2
      subst h2
      exact ⟨rest, hrep1, by simp [freshCursor]⟩
  | pop_back h =>
    rcases List.eq_nil_or_concat xs with rfl | ⟨ys, a, rfl⟩
    · rw [pop_back_nil hrep, Option.some_inj] at h
      injection h with h1 h2
      subst h2
      exact ⟨[], hrep, by simp [freshCursor]⟩
    · rw [List.concat_eq_append] at hrep
      obtain ⟨s1, hpop, hrep1⟩ := pop_back_concat hrep
      rw [hpop, Option.some_inj] at h
      injection h with h1 h2
      subst h2
      exact ⟨ys, hrep1, by simp [freshCursor]⟩
  | cursor_mut =>
    exact ⟨xs, hrep, by simp [freshCursor]⟩
  | @move_next c s =>
    refine ⟨xs, hrep, ?_⟩
    intro cc' hc'
    cases hcc : c.current with
    | none =>
      rw [show (c.move_next s, s).1 = c.move_next s from rfl,
        CursorMut.move_next, hcc] at hc'
      simp at hc'
      rw [hrep.1] at hc'
      exact List.mem_of_mem_head? hc'
    | some cc =>
      rw [show (c.move_next s, s).1 = c.move_next s from rfl,
        CursorMut.move_next, hcc] at hc'
      simp at hc'
      exact represents_next_mem hrep (hcur cc hcc) hc'
  | @move_prev c c' s h =>
    refine ⟨xs, hrep, ?_⟩
    intro cc' hc'
    cases hcc : c.current with
    | none =>
      cases husub : usub s.len 1 with
      | none => rw [CursorMut.move_prev, hcc, husub] at h; cases h
      | some i =>
        rw [CursorMut.move_prev, hcc, husub, Option.some_inj] at h
        rw [← h] at hc'
        simp at hc'
        rw [hrep.2.1] at hc'
        exact List.mem_of_mem_getLast? hc'
    | some cc =>
      cases husub : usub (c.idx.getD 0) 1 with
      | none => rw [CursorMut.move_prev, hcc, husub] at h; cases h
      | some i =>
        rw [CursorMut.move_prev, hcc, husub, Option.some_inj] at h
        rw [← h] at hc'
        simp at hc'
        exact represents_prev_mem hrep (hcur cc hcc) hc'
  | @remove c s r c' s' h =>
    cases hcc : c.current with
    | none =>
      have hred : c.remove s = some (none, ⟨some 0, s.front⟩, s) := by
        simp [CursorMut.remove, CursorMut.move_next, hcc]
      rw [hred, Option.some_inj] at h
      injection h with h1 h2
      injection h2 with h2a h2b
      subst h2a
      subst h2b
      refine ⟨xs, hrep, ?_⟩
      intro cc' hc'
      simp at hc'
      rw [hrep.1] at hc'
      exact List.mem_of_mem_head? hc'
    | some cc =>
      obtain ⟨u, v, rfl, -, -⟩ := represents_mem_split hrep (hcur cc hcc)
      obtain ⟨s1, hrem, hrep1⟩ := remove_represents hrep hcc
      rw [hrem, Option.some_inj] at h
      injection h with h1 h2
      injection h2 with h2a h2b
      subst h2a
      subst h2b
      refine ⟨u ++ v, hrep1, ?_⟩
      intro cc' hc'
      simp at hc'
      exact List.mem_append_right u (List.mem_of_mem_head? hc')
  | @insert_before c s n hn =>
    obtain ⟨hnx, hnp, hnm⟩ := hn
    rw [represents_nextChain hrep] at hnm
    cases hcc : c.current with
    | none =>
      have hred : c.insert_before s n = (c, s) := by
        simp [CursorMut.insert_before, hcc]
      rw [hred]
      exact ⟨xs, hrep, hcur⟩
    | some cc =>
      obtain ⟨u, v, rfl, -, -⟩ := represents_mem_split hrep (hcur cc hcc)
      obtain ⟨hrep1, hcur1⟩ := insert_before_represents hrep hcc hnm hnx hnp
      refine ⟨_, hrep1, ?_⟩
      intro cc' hc'
      rw [hcur1, Option.some_inj] at hc'
      subst hc'
      exact List.mem_append_right u (List.mem_cons_of_mem _ (List.mem_cons_self cc v))

lemma reachable_inv {p : CursorMut × RList T} (h : Reachable p) : Inv p := by
  obtain ⟨p0, hinit, hsteps⟩ := h
  induction hsteps with
  | refl => exact Init_inv hinit
  | tail _ hstep ih => exact Inv_step ih hstep

/-- `push_front` rewrites only the pushed node and the old front node. -/
lemma push_front_heap_pres {s : RList T} {n x : Nat} (hxn : x ≠ n)
    (hxf : s.front ≠ some x) : (s.push_front n).heap x = s.heap x := by
  cases hf : s.front with
  | none => simp [RList.push_front, hf]
  | some a =>
    have hxa : x ≠ a := fun h => hxf (by rw [hf, h])
    simp only [RList.push_front, hf]
    rw [Heap.set_other _ _ _ hxa, Heap.set_other _ _ _ hxn]

/-- Pushing a batch of distinct clean fresh nodes with `push_front` reverses
it onto the front of the abstract list. -/
lemma pushFrontAll_represents : ∀ (ns : List Nat) {s : RList T} {xs : List Nat},
    represents s xs → ns.Nodup → (∀ n ∈ ns, n ∉ xs) →
    (∀ n ∈ ns, (s.heap n).next = none ∧ (s.heap n).prev = none) →
    represents (pushFrontAll s ns) (ns.reverse ++ xs) := by
  intro ns
  induction ns with
  | nil => intro s xs hs _ _ _; simpa [pushFrontAll] using hs
  | cons n rest ih =>
    intro s xs hs hnd hfresh hclean
    have hs1 : represents (s.push_front n) (n :: xs) :=
      push_front_represents hs (hfresh n (List.mem_cons_self n rest))
        (hclean n (List.mem_cons_self n rest)).1
        (hclean n (List.mem_cons_self n rest)).2
    have hrest : represents (pushFrontAll (s.push_front n) rest) (rest.reverse ++ (n :: xs)) := by
      refine ih hs1 (List.nodup_cons.mp hnd).2 ?_ ?_
      · intro m hm
        have hmn : m ≠ n := fun h => (List.nodup_cons.mp hnd).1 (h ▸ hm)
        simp only [List.mem_cons]
        push_neg
        exact ⟨hmn, hfresh m (List.mem_cons_of_mem n hm)⟩
      · intro m hm
        have hmn : m ≠ n := fun h => (List.nodup_cons.mp hnd).1 (h ▸ hm)
        have hmf : s.front ≠ some m := by
          rw [hs.1]
          intro hmem
          exact hfresh m (List.mem_cons_of_mem n hm) (List.mem_of_mem_head? hmem)
        rw [push_front_heap_pres hmn hmf]
        exact hclean m (List.mem_cons_of_mem n hm)
    have hfold : pushFrontAll s (n :: rest) = pushFrontAll (s.push_front n) rest := rfl
    rw [hfold]
    have : rest.reverse ++ (n :: xs) = (n :: rest).reverse ++ xs := by
      simp
    rw [← this]
    exact hrest

/-- Popping a well-formed list dry from the back returns its nodes in
back-to-front order. -/
lemma popBackN_spec : ∀ (ys : List Nat), ∀ {s : RList T}, represents s ys →
    ∃ s', popBackN s ys.length = some (ys.reverse.map some, s')
      ∧ represents s' [] := by
  intro ys
  induction ys using List.reverseRecOn with
  | nil =>
    intro s hs
    exact ⟨s, by simp [popBackN], hs⟩
  | append_singleton ys a ih =>
    intro s hs
    obtain ⟨s1, hpop, hrep1⟩ := pop_back_concat hs
    obtain ⟨s2, hloop, hrep2⟩ := ih hrep1
    refine ⟨s2, ?_, hrep2⟩
    have hlen : (ys ++ [a]).length = ys.length + 1 := by simp
    rw [hlen]
    simp [popBackN, hpop, hloop]

lemma represents_emptyList : represents emptyList ([] : List Nat) :=
  ⟨rfl, rfl, rfl, by simp, by simp, by simp, by simp⟩

lemma represents_oneList : represents oneList [1] := by
  simpa using push_front_represents represents_emptyList (by simp) rfl rfl

lemma represents_twoList : represents twoList [1, 2] := by
  have h1 : represents (emptyList.push_back 1) [1] := by
    simpa using push_back_represents represents_emptyList (by simp) rfl rfl
  simpa using push_back_represents h1 (by decide) (by decide) (by decide)

lemma represents_threeList : represents threeList [1, 2, 3] := by
  have h1 : represents (emptyList.push_back 1) [1] := by
    simpa using push_back_represents represents_emptyList (by simp) rfl rfl
  have h2 : represents ((emptyList.push_back 1).push_back 2) [1, 2] := by
    simpa using push_back_represents h1 (by decide) (by decide) (by decide)
  simpa using push_back_represents h2 (by decide) (by decide) (by decide)

/-! ## The claims -/

/-- C1: after any sequence of push_front/push_back/pop_front/pop_back/
cursor-remove/cursor-insert_before operations (with legal cursor movement)
starting from a newly created list, `len()` equals the number of nodes
reachable by following `next` from the front (the walk, given one extra
unit of fuel, still stops after exactly `len` nodes) and equals the number
reachable by following `prev` from the back; moreover `front` is `none` iff
`back` is `none` iff `len = 0`. -/
theorem c1_length_invariant {p : CursorMut × RList T} (h : Reachable p) :
    (nextChain p.2.heap (p.2.len + 1) p.2.front).length = p.2.len ∧
    (prevChain p.2.heap (p.2.len + 1) p.2.back).length = p.2.len ∧
    (p.2.front = none ↔ p.2.len = 0) ∧
    (p.2.back = none ↔ p.2.len = 0) := by
  obtain ⟨xs, hrep, -⟩ := reachable_inv h
  have hn : nextChain p.2.heap (p.2.len + 1) p.2.front = xs := by
    rw [hrep.1, hrep.2.2.1]
    exact nextChain_of_chain hrep.2.2.2.2.1 hrep.2.2.2.2.2.2 _ (by omega)
  have hp : prevChain p.2.heap (p.2.len + 1) p.2.back = xs.reverse := by
    rw [hrep.2.1, hrep.2.2.1]
    exact prevChain_of_chain hrep.2.2.2.2.1 hrep.2.2.2.2.2.1 _ (by omega)
  refine ⟨by rw [hn, hrep.2.2.1], by rw [hp]; simp [hrep.2.2.1], ?_, ?_⟩
  · rw [hrep.1, hrep.2.2.1]
    cases xs <;> simp
  · rw [hrep.2.1, hrep.2.2.1]
    rcases List.eq_nil_or_concat xs with rfl | ⟨ys, a, rfl⟩ <;> simp

theorem c1_length_invariant_witness :
    (nextChain (emptyList.push_front 5).heap ((emptyList.push_front 5).len + 1)
        (emptyList.push_front 5).front).length = (emptyList.push_front 5).len ∧
    (prevChain (emptyList.push_front 5).heap ((emptyList.push_front 5).len + 1)
        (emptyList.push_front 5).back).length = (emptyList.push_front 5).len ∧
    ((emptyList.push_front 5).front = none ↔ (emptyList.push_front 5).len = 0) ∧
    ((emptyList.push_front 5).back = none ↔ (emptyList.push_front 5).len = 0) := by
  have hreach : Reachable (freshCursor, emptyList.push_front 5) := by
    refine ⟨(freshCursor, emptyList), ⟨rfl, rfl, rfl, rfl⟩,
      Relation.ReflTransGen.single (Step.push_front ⟨rfl, rfl, by simp [nextChain]⟩)⟩
  exact c1_length_invariant hreach

/-- C3 counterexample: with the cursor off-list (a fresh cursor on a
one-node list), `remove()` does return an absent result, but the cursor's
state is NOT unchanged: `move_next` runs first, so `current` becomes the
front node and the stored index becomes `some 0`. -/
theorem c3_offlist_remove_counterexample :
    freshCursor.current = none ∧ freshCursor.idx = none ∧
    (freshCursor.remove oneList).map (fun r => (r.1, r.2.1))
      = some (none, (⟨some 0, some 1⟩ : CursorMut)) ∧
    ((⟨some 0, some 1⟩ : CursorMut) ≠ freshCursor) := by
  decide

/-- C3 (amended): when the cursor is off-list, `remove()` returns an absent
result and leaves the list unchanged, but the cursor is first advanced by
`move_next`: its `current` becomes `list.front` and its stored index
becomes `some 0`. -/
theorem c3_offlist_remove_amended {c : CursorMut} {s : RList T}
    (hc : c.current = none) :
    c.remove s = some (none, ⟨some 0, s.front⟩, s) := by
  simp [CursorMut.remove, CursorMut.move_next, hc]

theorem c3_offlist_remove_amended_witness :
    freshCursor.remove oneList = some (none, ⟨some 0, oneList.front⟩, oneList) :=
  c3_offlist_remove_amended rfl

/-- C4 (the code at the claim's failing input): with a one-node list and
the cursor at position 0 (on the front node), `move_prev()` computes
`0 - 1` on the unsigned stored index.  In the checked-arithmetic model this
is the `none` (panic) outcome: the index computation underflows instead of
the cursor being left off-list. -/
theorem c4_move_prev_underflow :
    cursorAtFront.idx = some 0 ∧ cursorAtFront.current = oneList.front ∧
    oneList.front = some 1 ∧
    cursorAtFront.move_prev oneList = none := by
  decide

/-- C7: popping either end of an empty, well-formed list any number of
times always returns an absent result and returns the state unchanged
(hence `len` stays 0). -/
theorem c7_empty_pops {s : RList T} (hs : represents s ([] : List Nat)) :
    ∀ k, popFrontN s k = some (List.replicate k none, s) ∧
      popBackN s k = some (List.replicate k none, s) := by
  intro k
  induction k with
  | zero => exact ⟨by simp [popFrontN], by simp [popBackN]⟩
  | succ m ih =>
    constructor
    · show popFrontN s (m + 1) = _
      rw [popFrontN, pop_front_nil hs]
      simp [ih.1, List.replicate_succ]
    · show popBackN s (m + 1) = _
      rw [popBackN, pop_back_nil hs]
      simp [ih.2, List.replicate_succ]

theorem c7_empty_pops_witness :
    popFrontN emptyList 3 = some ([none, none, none], emptyList) ∧
    popBackN emptyList 3 = some ([none, none, none], emptyList) :=
  c7_empty_pops represents_emptyList 3

/-- C9: `move_prev()` on an off-list cursor unconditionally computes
`list.len() - 1` for the stored index and takes `list.back` as the new
current node; there is no emptiness guard, so on an empty list the unsigned
subtraction `0 - 1` underflows (the checked-arithmetic `none`/panic
outcome): the operation is not total there. -/
theorem c9_move_prev_offlist {c : CursorMut} {s : RList T}
    (hc : c.current = none) :
    (s.len = 0 → c.move_prev s = none) ∧
    (∀ k, s.len = k + 1 → c.move_prev s = some ⟨some k, s.back⟩) := by
  constructor
  · intro h0
    simp [CursorMut.move_prev, hc, usub, h0]
  · intro k hk
    simp [CursorMut.move_prev, hc, usub, hk]

theorem c9_move_prev_offlist_witness :
    freshCursor.move_prev emptyList = none ∧
    freshCursor.move_prev twoList = some ⟨some 1, some 2⟩ := by
  refine ⟨(c9_move_prev_offlist (c := freshCursor) (s := emptyList) rfl).1 rfl, ?_⟩
  have h := (c9_move_prev_offlist (c := freshCursor) (s := twoList) rfl).2 1 rfl
  exact h.trans (by decide)

/-- C2 counterexample: on the two-node list `[1, 2]` with the cursor moved
to position 1 (the back node), the remove-until-off-list loop performs one
removal and stops with the cursor off-list while one node is still linked
(`len = 1`), so it does not remove every node of the list. -/
theorem c2_remove_all_counterexample :
    twoList.len = 2 ∧ cursorAtBack.current = some 2 ∧
    (removeLoop twoList.len cursorAtBack twoList).map
      (fun r => (r.1, r.2.1.current, r.2.2.len)) = some (1, none, 1) := by
  decide

/-- C2 (amended): with the cursor on the head of the suffix `v` of a
well-formed list `u ++ v`, repeatedly calling `remove()` until the cursor
is off-list removes exactly the `v.length` nodes from the cursor's position
to the back, each once; the `u.length` nodes before the starting position
remain linked.  Only a cursor starting at the front removes everything. -/
theorem c2_remove_all_amended {s : RList T} {u v : List Nat} {c : CursorMut}
    (hs : represents s (u ++ v)) (hc : c.current = v.head?) :
    ∃ c' s', removeLoop v.length c s = some (v.length, c', s') ∧
      represents s' u ∧ c'.current = none :=
  removeLoop_spec v c s hs hc

theorem c2_remove_all_amended_witness :
    ∃ c' s', removeLoop 1 cursorAtBack twoList = some (1, c', s') ∧
      represents s' [1] ∧ c'.current = none :=
  c2_remove_all_amended (u := [1]) (v := [2]) represents_twoList (by decide)

/-- C5: for every well-formed list, starting a fresh (off-list) cursor and
calling `move_next()` exactly `len()` times visits every linked node
exactly once in front-to-back order (the `(i+1)`-st call lands on the
`i`-th node), and one further `move_next()` leaves the cursor off-list. -/
theorem c5_traversal {s : RList T} {xs : List Nat} (hs : represents s xs) :
    (∀ i, i < s.len → (moveNextIter freshCursor s (i + 1)).current = xs[i]?) ∧
    (moveNextIter freshCursor s (s.len + 1)).current = none := by
  have hlen := hs.2.2.1
  constructor
  · intro i hi
    rw [hlen] at hi
    rw [moveNextIter_fresh hs i hi]
  · rw [hlen]
    cases hxs : xs with
    | nil =>
      subst hxs
      simp [moveNextIter, CursorMut.move_next, freshCursor, hs.1]
    | cons y ys =>
      subst hxs
      have hlt : ys.length < (y :: ys).length := by simp
      show ((moveNextIter freshCursor s (ys.length + 1)).move_next s).current = none
      rw [moveNextIter_fresh hs ys.length hlt]
      have hx : (y :: ys)[ys.length]? = some ((y :: ys).get ⟨ys.length, hlt⟩) := by
        rw [List.getElem?_eq_getElem hlt, List.get_eq_getElem]
      have hnx := next_at hs ys.length hlt
      rw [List.get_eq_getElem] at hx hnx
      have hnone : (y :: ys)[ys.length + 1]? = none :=
        List.getElem?_eq_none (by simp)
      rw [hnone] at hnx
      simp [CursorMut.move_next, hx, hnx]

theorem c5_traversal_witness :
    (moveNextIter freshCursor twoList 1).current = some 1 ∧
    (moveNextIter freshCursor twoList 2).current = some 2 ∧
    (moveNextIter freshCursor twoList 3).current = none := by
  have h := c5_traversal represents_twoList
  exact ⟨by simpa using h.1 0 (by decide), by simpa using h.1 1 (by decide), h.2⟩

/-- C8: pushing the distinct clean nodes `ns`, in order, with `push_front`
into an initially empty list and then popping `ns.length` times with
`pop_back` yields the nodes in the original push order. -/
theorem c8_push_front_pop_back {s : RList T} {ns : List Nat}
    (hs : represents s ([] : List Nat)) (hnd : ns.Nodup)
    (hclean : ∀ n ∈ ns, (s.heap n).next = none ∧ (s.heap n).prev = none) :
    ∃ s', popBackN (pushFrontAll s ns) ns.length = some (ns.map some, s')
      ∧ represents s' [] := by
  have hrep : represents (pushFrontAll s ns) (ns.reverse ++ []) :=
    pushFrontAll_represents ns hs hnd (by simp) hclean
  rw [List.append_nil] at hrep
  obtain ⟨s', hpop, hrep'⟩ := popBackN_spec ns.reverse hrep
  rw [List.length_reverse, List.reverse_reverse] at hpop
  exact ⟨s', hpop, hrep'⟩

theorem c8_push_front_pop_back_witness :
    ∃ s', popBackN (pushFrontAll emptyList [1, 2, 3]) 3
        = some ([some 1, some 2, some 3], s') ∧ represents s' [] :=
  c8_push_front_pop_back represents_emptyList (by decide)
    (fun n _ => ⟨rfl, rfl⟩)

/-- C6: `insert_before(node)`.  When the cursor is off-list it is a no-op
(list and cursor unchanged).  When the cursor's current node has a
predecessor, `node` is spliced between them (`prev.next = node`,
`current.prev = node`, `node.prev = prev`, `node.next = current`), `len` is
incremented, the stored index is incremented, and `current` stays the same
node. -/
theorem c6_insert_before {s : RList T} {c : CursorMut} {n : Nat} :
    (c.current = none → c.insert_before s n = (c, s)) ∧
    (∀ cc p i, c.current = some cc → (s.heap cc).prev = some p →
      c.idx = some i → n ≠ p → n ≠ cc →
      ((c.insert_before s n).2.heap p).next = some n ∧
      ((c.insert_before s n).2.heap cc).prev = some n ∧
      ((c.insert_before s n).2.heap n).prev = some p ∧
      ((c.insert_before s n).2.heap n).next = some cc ∧
      (c.insert_before s n).2.len = s.len + 1 ∧
      (c.insert_before s n).1.idx = some (i + 1) ∧
      (c.insert_before s n).1.current = some cc) := by
  constructor
  · intro hc
    simp [CursorMut.insert_before, hc]
  · intro cc p i hcc hprev hidx hnp hncc
    have hpn : ¬(p = n) := fun h => hnp h.symm
    have hccn : ¬(cc = n) := fun h => hncc h.symm
    simp only [CursorMut.insert_before, hcc, hprev]
    by_cases hpcc : p = cc
    · subst hpcc
      refine ⟨?_, ?_, ?_, ?_, ?_, ?_, ?_⟩ <;>
        simp [Heap.set, hpn, hccn, hidx, hcc]
    · refine ⟨?_, ?_, ?_, ?_, ?_, ?_, ?_⟩ <;>
        simp [Heap.set, hpn, hccn, hpcc, hidx, hcc]

theorem c6_insert_before_witness :
    ((cursorAtBack.insert_before twoList 3).2.heap 1).next = some 3 ∧
    ((cursorAtBack.insert_before twoList 3).2.heap 2).prev = some 3 ∧
    ((cursorAtBack.insert_before twoList 3).2.heap 3).prev = some 1 ∧
    ((cursorAtBack.insert_before twoList 3).2.heap 3).next = some 2 ∧
    (cursorAtBack.insert_before twoList 3).2.len = twoList.len + 1 ∧
    (cursorAtBack.insert_before twoList 3).1.idx = some 2 ∧
    (cursorAtBack.insert_before twoList 3).1.current = some 2 ∧
    freshCursor.insert_before twoList 3 = (freshCursor, twoList) := by
  have h := (c6_insert_before (s := twoList) (c := cursorAtBack) (n := 3)).2
    2 1 1 (by decide) (by decide) (by decide) (by decide) (by decide)
  have hoff := (c6_insert_before (s := twoList) (c := freshCursor) (n := 3)).1 rfl
  exact ⟨h.1, h.2.1, h.2.2.1, h.2.2.2.1, h.2.2.2.2.1,
    h.2.2.2.2.2.1, h.2.2.2.2.2.2, hoff⟩

/-- C10: `pop_front()` returns the detached node without clearing that
node's own `next` field, and `pop_back()` returns the detached node with
its `prev` field still set; the boundary cases of cursor `remove()`
(delegating to the pops) likewise leave the detached node's fields set, and
only the interior case of `remove()` clears both link fields of the removed
node. -/
theorem c10_detached_links {s : RList T} :
    (∀ f nn, s.front = some f → (s.heap f).next = some nn → 0 < s.len →
      s.pop_front.map (fun r => (r.1, (r.2.heap f).next))
        = some (some f, some nn)) ∧
    (∀ b pp, s.back = some b → (s.heap b).prev = some pp → 0 < s.len →
      s.pop_back.map (fun r => (r.1, (r.2.heap b).prev))
        = some (some b, some pp)) ∧
    (∀ (c : CursorMut) cc pp nn, c.current = some cc →
      (s.heap cc).prev = some pp → (s.heap cc).next = some nn → 0 < s.len →
      (c.remove s).map (fun r => (r.1, (r.2.2.heap cc).prev, (r.2.2.heap cc).next))
        = some (some cc, none, none)) ∧
    (∀ (c : CursorMut) cc nn, c.current = some cc →
      (s.heap cc).prev = none → (s.heap cc).next = some nn → 0 < s.len →
      (c.remove s).map (fun r => (r.2.2.heap cc).next) = some (some nn)) ∧
    (∀ (c : CursorMut) cc pp, c.current = some cc →
      (s.heap cc).prev = some pp → (s.heap cc).next = none → 0 < s.len →
      (c.remove s).map (fun r => (r.2.2.heap cc).prev) = some (some pp)) := by
  refine ⟨?_, ?_, ?_, ?_, ?_⟩
  · intro f nn hf hfn hpos
    obtain ⟨m, hm⟩ : ∃ m, s.len = m + 1 := ⟨s.len - 1, by omega⟩
    by_cases hfe : f = nn
    · subst hfe
      simp [RList.pop_front, hf, hfn, usub, hm, Heap.set]
    · simp [RList.pop_front, hf, hfn, usub, hm, Heap.set, hfe]
  · intro b pp hb hbp hpos
    obtain ⟨m, hm⟩ : ∃ m, s.len = m + 1 := ⟨s.len - 1, by omega⟩
    by_cases hbe : b = pp
    · subst hbe
      simp [RList.pop_back, hb, hbp, usub, hm, Heap.set]
    · simp [RList.pop_back, hb, hbp, usub, hm, Heap.set, hbe]
  · intro c cc pp nn hcc hccp hccn hpos
    obtain ⟨m, hm⟩ : ∃ m, s.len = m + 1 := ⟨s.len - 1, by omega⟩
    simp [CursorMut.remove, CursorMut.move_next, hcc, hccp, hccn, usub, hm,
      Heap.set]
  · intro c cc nn hcc hccp hccn hpos
    obtain ⟨m, hm⟩ : ∃ m, s.len = m + 1 := ⟨s.len - 1, by omega⟩
    cases hf : s.front with
    | none =>
      simp [CursorMut.remove, CursorMut.move_next, hcc, hccp, hccn,
        RList.pop_front, hf, hccn]
    | some f =>
      cases hfn : (s.heap f).next with
      | none =>
        simp [CursorMut.remove, CursorMut.move_next, hcc, hccp, hccn,
          RList.pop_front, hf, hfn, usub, hm]
      | some nf =>
        by_cases hce : cc = nf
        · subst hce
          simp [CursorMut.remove, CursorMut.move_next, hcc, hccp, hccn,
            RList.pop_front, hf, hfn, usub, hm, Heap.set]
        · simp [CursorMut.remove, CursorMut.move_next, hcc, hccp, hccn,
            RList.pop_front, hf, hfn, usub, hm, Heap.set, hce]
  · intro c cc pp hcc hccp hccn hpos
    obtain ⟨m, hm⟩ : ∃ m, s.len = m + 1 := ⟨s.len - 1, by omega⟩
    cases hb : s.back with
    | none =>
      simp [CursorMut.remove, CursorMut.move_next, hcc, hccp, hccn,
        RList.pop_back, hb]
    | some b =>
      cases hbp : (s.heap b).prev with
      | none =>
        simp [CursorMut.remove, CursorMut.move_next, hcc, hccp, hccn,
          RList.pop_back, hb, hbp, usub, hm]
      | some nb =>
        by_cases hce : cc = nb
        · subst hce
          simp [CursorMut.remove, CursorMut.move_next, hcc, hccp, hccn,
            RList.pop_back, hb, hbp, usub, hm, Heap.set]
        · simp [CursorMut.remove, CursorMut.move_next, hcc, hccp, hccn,
            RList.pop_back, hb, hbp, usub, hm, Heap.set, hce]

theorem c10_detached_links_witness :
    threeList.pop_front.map (fun r => (r.1, (r.2.heap 1).next))
      = some (some 1, some 2) ∧
    threeList.pop_back.map (fun r => (r.1, (r.2.heap 3).prev))
      = some (some 3, some 2) ∧
    (CursorMut.remove ⟨some 1, some 2⟩ threeList).map
      (fun r => (r.1, (r.2.2.heap 2).prev, (r.2.2.heap 2).next))
      = some (some 2, none, none) ∧
    (CursorMut.remove ⟨some 0, some 1⟩ threeList).map
      (fun r => (r.2.2.heap 1).next) = some (some 2) ∧
    (CursorMut.remove ⟨some 2, some 3⟩ threeList).map
      (fun r => (r.2.2.heap 3).prev) = some (some 2) := by
  have h := c10_detached_links (s := threeList)
  exact ⟨h.1 1 2 (by decide) (by decide) (by decide),
    h.2.1 3 2 (by decide) (by decide) (by decide),
    h.2.2.1 ⟨some 1, some 2⟩ 2 1 3 (by decide) (by decide) (by decide) (by decide),
    h.2.2.2.1 ⟨some 0, some 1⟩ 1 2 (by decide) (by decide) (by decide) (by decide),
    h.2.2.2.2 ⟨some 2, some 3⟩ 3 2 (by decide) (by decide) (by decide) (by decide)⟩

end RawList
